import Mathlib

/-!
Verification of the open-addressing hash map `OAHashMap` from `src/lib.rs`.

The Rust code is generic over a key type `K : Hash + Eq` and value type `V`.
Hashing is modelled by an explicit parameter `hash : K → Nat` standing for the
composition of the key's `Hash` implementation with `DefaultHasher::finish`
(a `u64` value, then `as usize` on a 64-bit target, an identity on the value);
since the code never inspects the hash beyond `% capacity`, this is the exact
observable interface.  Machine integers are modelled as `Nat`; `usize::MAX`
is `2 ^ 64 - 1` (64-bit target).

Partiality: a Rust panic (out-of-bounds `Vec` indexing, the explicit
`panic!` in `extend`, `Option::unwrap` on `None`, `Vec::with_capacity`
capacity overflow) is modelled by an operation returning `none`; a normal
return is `some`.

The buffer is a `List (Option (Entry K V))` whose length is the capacity.
The Rust code calls `self.buffer.capacity()`, with the vector always fully
populated (`len == capacity`) because every slot is pushed at construction
and growth, and `Vec::with_capacity(n)` allocates exactly `n` slots for a
sized element type.
-/

set_option maxHeartbeats 1000000
set_option linter.unusedSectionVars false

namespace OAHM

/-- Mirrors `struct Entry<K, V> { key, value, is_deleted }` from the source. -/
structure Entry (K V : Type) where
  key : K
  value : V
  is_deleted : Bool
  deriving DecidableEq, Repr

/-- The backing array: `Vec<Option<Entry<K, V>>>`. -/
abbrev Buf (K V : Type) := List (Option (Entry K V))

/-- Mirrors `struct OAHashMap<K, V> { buffer: Vec<Option<Entry<K, V>>> }`. -/
structure OAHashMap (K V : Type) where
  buffer : Buf K V
  deriving DecidableEq, Repr

/-- The value of `usize::MAX` on the 64-bit target. -/
def USIZE_MAX : Nat := 2 ^ 64 - 1

/-- The value of `isize::MAX` on the 64-bit target; `Vec::with_capacity`
panics ("capacity overflow") when the requested allocation exceeds
`isize::MAX` bytes.  An `Option<Entry<K, V>>` occupies at least one byte for
every `K`, `V` (the struct contains a `bool`), so an element count above
`isize::MAX` always panics; we use this size lower bound of one byte, which
under-approximates the panics of larger element types. -/
def ISIZE_MAX : Nat := 2 ^ 63 - 1

/-- `const INITIAL_CAPACITY: usize = 64`. -/
def INITIAL_CAPACITY : Nat := 64

/-- Mirrors `Entry::new(key, value)`: the tombstone flag is always `false`. -/
def Entry.new {K V : Type} (key : K) (value : V) : Entry K V :=
  ⟨key, value, false⟩

namespace OAHashMap

variable {K V : Type} [DecidableEq K]

/-- Mirrors `OAHashMap::new()`: a buffer of `INITIAL_CAPACITY` slots, all
`None`. -/
def new : OAHashMap K V :=
  ⟨List.replicate INITIAL_CAPACITY none⟩

/-- The current capacity, `self.buffer.capacity()` in the source (equal to
the vector length, see the header comment). -/
def capacity (m : OAHashMap K V) : Nat := m.buffer.length

/-- Mirrors `starting_index`: `calculate_hash(h) as usize % self.buffer.capacity()`.
The source calls this both on a key and on an `Entry`; `Entry`'s `Hash`
implementation hashes the key, so the two agree and we take the key. -/
def starting_index (hash : K → Nat) (m : OAHashMap K V) (k : K) : Nat :=
  hash k % m.capacity

/-- The probe loop shared verbatim by `find_index` and `delete` (the same
`while let Some(entry) = &self.buffer[index]` header, the same
`&entry.key == key` test, `index += 1` with no wraparound).  It scans the
buffer suffix starting at absolute index `i`:
`none` models the out-of-bounds panic of `self.buffer[index]` once the scan
runs past the end of the array; `some none` is the loop falling through on an
`Empty` slot (key absent); `some (some j)` is a key match at absolute index
`j`.  The key test ignores `is_deleted`. -/
def probeFind (k : K) : Buf K V → Nat → Option (Option Nat)
  | [], _ => none
  | none :: _, _ => some none
  | some e :: rest, i => if e.key = k then some (some i) else probeFind k rest (i + 1)

/-- Mirrors `find_index`. -/
def find_index (hash : K → Nat) (m : OAHashMap K V) (k : K) : Option (Option Nat) :=
  probeFind k (m.buffer.drop (m.starting_index hash k)) (m.starting_index hash k)

/-- Mirrors `search`: `find_index(key).map(|i| &buffer[i].as_ref().unwrap().value)`.
The wildcard branch models the `unwrap` panic on an empty slot (never taken:
`find_index` only returns indices of occupied slots). -/
def search (hash : K → Nat) (m : OAHashMap K V) (k : K) : Option (Option V) :=
  match find_index hash m k with
  | none => none
  | some none => some none
  | some (some i) =>
    match m.buffer[i]? with
    | some (some e) => some (some e.value)
    | _ => none

/-- Mirrors `delete`: the loop is the probe of `find_index` with
`std::mem::take(&mut self.buffer[index])` (reset the slot to `None`) at the
first key match, a silent return at the first `Empty` slot, and an
out-of-bounds panic past the end. -/
def delete (hash : K → Nat) (m : OAHashMap K V) (k : K) : Option (OAHashMap K V) :=
  match probeFind k (m.buffer.drop (m.starting_index hash k)) (m.starting_index hash k) with
  | none => none
  | some none => some m
  | some (some i) => some ⟨m.buffer.set i none⟩

/-- The second loop of `insert_unchecked`: scan from absolute index `i` for
the first slot that is `Empty` or holds a deleted entry (that slot receives
the new entry); `none` models the out-of-bounds panic. -/
def probePlace : Buf K V → Nat → Option Nat
  | [], _ => none
  | none :: _, i => some i
  | some e :: rest, i => if e.is_deleted then some i else probePlace rest (i + 1)

/-- Mirrors `insert_unchecked`: overwrite in place when `find_index` finds
the key, otherwise place the entry at the first `Empty`-or-deleted slot of
the probe from the entry's starting index (hashing the entry hashes its
key).  Panics of either probe propagate. -/
def insert_unchecked (hash : K → Nat) (m : OAHashMap K V) (e : Entry K V) :
    Option (OAHashMap K V) :=
  match find_index hash m e.key with
  | none => none
  | some (some i) => some ⟨m.buffer.set i (some e)⟩
  | some none =>
    match probePlace (m.buffer.drop (m.starting_index hash e.key)) (m.starting_index hash e.key) with
    | none => none
    | some i => some ⟨m.buffer.set i (some e)⟩

/-- The count of live (non-deleted) entries,
`buffer.iter().filter(|e| e.as_ref().is_some_and(|e| !e.is_deleted)).count()`. -/
def liveCount (buf : Buf K V) : Nat :=
  (buf.filter fun s => match s with | some e => !e.is_deleted | none => false).length

end OAHashMap

/-- Rounding of a natural number to the nearest `f32` (24-bit significand,
ties to even), the semantics of Rust's `as f32` cast on an integer.  Exact
below `2 ^ 24`; the inputs of this development never exceed `2 ^ 64`, far
inside the finite range of `f32`. -/
def roundF32 (n : Nat) : Nat :=
  if n < 16777216 then n
  else if 2 * (n % 2 ^ (n.log2 - 23)) > 2 ^ (n.log2 - 23) ∨
      (2 * (n % 2 ^ (n.log2 - 23)) = 2 ^ (n.log2 - 23) ∧ (n / 2 ^ (n.log2 - 23)) % 2 = 1)
    then (n / 2 ^ (n.log2 - 23) + 1) * 2 ^ (n.log2 - 23)
    else (n / 2 ^ (n.log2 - 23)) * 2 ^ (n.log2 - 23)

namespace OAHashMap

variable {K V : Type} [DecidableEq K]

/-- Mirrors `needs_extending`:
`number_of_elements as f32 / capacity as f32 > EXTEND_LIMIT` with
`EXTEND_LIMIT: f32 = 0.6`.  The `f32` nearest `0.6` is `10066330 / 2 ^ 24`,
and for every capacity this table ever has (`64 * 2 ^ j`, or `usize::MAX`
rounding to `2 ^ 64`) the cast capacity is a power of two, so the `f32`
division is exact and the comparison is the exact rational comparison
`roundF32 live / roundF32 cap > 10066330 / 2 ^ 24`, cleared of denominators
below.  (On a capacity whose `f32` rounding is not a power of two — a state
this program never constructs — the division would round once more.) -/
def needs_extending (m : OAHashMap K V) : Bool :=
  decide (roundF32 (liveCount m.buffer) * 16777216 > 10066330 * roundF32 m.capacity)

/-- The reinsertion loop of `extend`:
`for entry in old_buffer { if let Some(entry) = entry { self.insert_unchecked(entry) } }`.
Every occupied slot of the old buffer is reinserted, in slot order, with its
`is_deleted` flag intact; `None` slots are skipped. -/
def reinsertAll (hash : K → Nat) : Buf K V → OAHashMap K V → Option (OAHashMap K V)
  | [], m => some m
  | none :: rest, m => reinsertAll hash rest m
  | some e :: rest, m =>
    match insert_unchecked hash m e with
    | none => none
    | some m2 => reinsertAll hash rest m2

/-- The capacity `extend` requests:
`current_capacity.checked_mul(2).unwrap_or(usize::MAX)` — doubling,
saturating to `usize::MAX` on overflow. -/
def new_capacity (m : OAHashMap K V) : Nat :=
  if m.capacity * 2 ≤ USIZE_MAX then m.capacity * 2 else USIZE_MAX

/-- Mirrors `extend`: panic when the capacity is already `usize::MAX`;
otherwise the new capacity is `checked_mul(2).unwrap_or(usize::MAX)`;
`Vec::with_capacity(new_capacity)` panics on capacity overflow (see
`ISIZE_MAX`); otherwise a fresh all-`None` buffer of the new capacity
replaces the old one and every occupied old slot is reinserted. -/
def extend (hash : K → Nat) (m : OAHashMap K V) : Option (OAHashMap K V) :=
  if m.capacity = USIZE_MAX then none
  else if ISIZE_MAX < m.new_capacity then none
  else reinsertAll hash m.buffer ⟨List.replicate m.new_capacity none⟩

/-- Mirrors `insert`: grow when `needs_extending()`, then
`insert_unchecked(Entry::new(key, value))`. -/
def insert (hash : K → Nat) (m : OAHashMap K V) (k : K) (v : V) :
    Option (OAHashMap K V) :=
  match (if m.needs_extending then m.extend hash else some m) with
  | none => none
  | some m2 => insert_unchecked hash m2 (Entry.new k v)

end OAHashMap

namespace OAHashMap

variable {K V : Type} [DecidableEq K]

/-- No stored entry is flagged deleted (no tombstone exists). -/
def NoTomb (m : OAHashMap K V) : Prop :=
  ∀ (i : Nat) (e : Entry K V), m.buffer[i]? = some (some e) → e.is_deleted = false

/-- No two stored entries (deleted or not) share a key. -/
def NoDupKeys (m : OAHashMap K V) : Prop :=
  ∀ (i j : Nat) (e f : Entry K V), m.buffer[i]? = some (some e) →
    m.buffer[j]? = some (some f) → e.key = f.key → i = j

/-- Every stored entry is located by `find_index` on its key: the probe from
its home slot reaches it without first meeting an `Empty` slot or running
off the end of the array. -/
def Findable (hash : K → Nat) (m : OAHashMap K V) : Prop :=
  ∀ (i : Nat) (e : Entry K V), m.buffer[i]? = some (some e) →
    find_index hash m e.key = some (some i)

/-- The ordered list of keys of the live (non-deleted) entries. -/
def liveKeys (m : OAHashMap K V) : List K :=
  ((m.buffer.filterMap id).filter fun e => !e.is_deleted).map Entry.key

/-- Whether some slot (live or deleted) stores the given key. -/
def containsKey (m : OAHashMap K V) (k : K) : Bool :=
  m.buffer.any fun s => match s with
    | some e => decide (e.key = k)
    | none => false

/-- Folding `insert_unchecked` over a plain list of entries, in order: the
reinsertion pass of `extend` seen at the level of the entries it feeds to
the insert path. -/
def reinsertEntries (hash : K → Nat) : List (Entry K V) → OAHashMap K V → Option (OAHashMap K V)
  | [], m => some m
  | e :: rest, m =>
    match insert_unchecked hash m e with
    | none => none
    | some m2 => reinsertEntries hash rest m2

/-- The live (non-deleted) entries stored in the table, in slot order. -/
def liveEntries (m : OAHashMap K V) : List (Entry K V) :=
  (m.buffer.filterMap id).filter fun e => !e.is_deleted

end OAHashMap

/-- The states reachable from `new()` by any sequence of `insert`, `search`
and `delete` calls that return normally (`search` does not change the
state).  A call that panics produces no successor state. -/
inductive Reach {K V : Type} [DecidableEq K] (hash : K → Nat) :
    OAHashMap K V → Prop where
  | new : Reach hash OAHashMap.new
  | insert {s s' : OAHashMap K V} {k : K} {v : V} :
      Reach hash s → s.insert hash k v = some s' → Reach hash s'
  | delete {s s' : OAHashMap K V} {k : K} :
      Reach hash s → s.delete hash k = some s' → Reach hash s'

/-- The states reachable from `new()` by `insert` and `search` calls alone
(no `delete`). -/
inductive ReachI {K V : Type} [DecidableEq K] (hash : K → Nat) :
    OAHashMap K V → Prop where
  | new : ReachI hash OAHashMap.new
  | insert {s s' : OAHashMap K V} {k : K} {v : V} :
      ReachI hash s → s.insert hash k v = some s' → ReachI hash s'

/-- The identity hash on natural-number keys.  The source hashes keys with
one fixed strategy whose only observable use is `hash(key) as usize %
capacity`; any probe pattern below is realised by genuine Rust keys whose
hashes land on the same residues. -/
def idHash : Nat → Nat := fun k => k

/-- Capacity-4 table whose occupied run [slots 2, 3] touches the end of the
array; probing for the absent key 7 (home slot 3) runs off the end. -/
def probeOffTable : OAHashMap Nat Nat :=
  ⟨[none, none, some ⟨2, 0, false⟩, some ⟨3, 0, false⟩]⟩

/-- The table after `insert(1, 10)` on a fresh table. -/
def insertedOne : OAHashMap Nat Nat :=
  ⟨(List.replicate 64 none).set 1 (some ⟨1, 10, false⟩)⟩

/-- The table after `insert(63, 0)` on a fresh table: the entry sits in the
last home slot. -/
def insertedSixtyThree : OAHashMap Nat Nat :=
  ⟨(List.replicate 64 none).set 63 (some ⟨63, 0, false⟩)⟩

/-- State after `insert(0, 1)` on a fresh table. -/
def chainS1 : OAHashMap Nat Nat :=
  ⟨(List.replicate 64 none).set 0 (some ⟨0, 1, false⟩)⟩

/-- State after `insert(0, 1)`, `insert(64, 2)` (keys 0 and 64 share home
slot 0; key 64 lands in slot 1). -/
def chainS2 : OAHashMap Nat Nat :=
  ⟨((List.replicate 64 none).set 0 (some ⟨0, 1, false⟩)).set 1 (some ⟨64, 2, false⟩)⟩

/-- State after additionally `delete(0)`: slot 0 is reset to `Empty`,
breaking the probe chain of the entry with key 64 in slot 1. -/
def chainS3 : OAHashMap Nat Nat :=
  ⟨(List.replicate 64 none).set 1 (some ⟨64, 2, false⟩)⟩

/-- State after additionally `insert(64, 3)`: the lookup probe stops at the
now-empty slot 0, misses the key-64 entry in slot 1, and inserts a second
live entry with key 64 into slot 0. -/
def chainS4 : OAHashMap Nat Nat :=
  ⟨((List.replicate 64 none).set 1 (some ⟨64, 2, false⟩)).set 0 (some ⟨64, 3, false⟩)⟩

/-- Capacity-4 table holding keys 15 and 7, both of whose home slot modulo
the doubled capacity 8 is 7: rehashing during `extend` probes past the end
of the new array. -/
def reinsertPanicTable : OAHashMap Nat Nat :=
  ⟨[some ⟨15, 0, false⟩, none, none, some ⟨7, 0, false⟩]⟩

/-- Capacity-4 table on which `extend` completes normally. -/
def extendOkTable : OAHashMap Nat Nat :=
  ⟨[none, none, none, some ⟨3, 9, false⟩]⟩

/-- Capacity-4 table holding one tombstoned entry. -/
def tombTable : OAHashMap Nat Nat :=
  ⟨[none, none, none, some ⟨3, 0, true⟩]⟩

/-- Capacity-4 table with 3 live entries: load factor 0.75 > 0.6, so the
next insert grows the table first. -/
def doubleTable : OAHashMap Nat Nat :=
  ⟨[some ⟨0, 0, false⟩, some ⟨1, 1, false⟩, some ⟨2, 2, false⟩, none]⟩

/-- `doubleTable` after `insert(5, 9)`: capacity doubled to 8 and the three
old entries were rehashed before the new entry was placed. -/
def doubledTable : OAHashMap Nat Nat :=
  ⟨[some ⟨0, 0, false⟩, some ⟨1, 1, false⟩, some ⟨2, 2, false⟩, none, none,
    some ⟨5, 9, false⟩, none, none]⟩

/-- Capacity `2 ^ 23` table with 5033165 live entries: its load factor
5033165 / 8388608 exceeds 3/5 but equals the `f32` nearest 0.6
(10066330 / 2 ^ 24) exactly, so the `f32` comparison does not trigger
growth. -/
def bigTable : OAHashMap Nat Nat :=
  ⟨List.replicate 5033165 (some ⟨0, 0, false⟩) ++ List.replicate 3355443 none⟩

/-- Below `2 ^ 24` the `f32` cast is exact. -/
theorem roundF32_small {n : Nat} (h : n < 16777216) : roundF32 n = n := by
  unfold roundF32
  rw [if_pos h]

/-- Powers of two cast to `f32` exactly (their significand is a single
bit). -/
theorem roundF32_pow2 (t : Nat) : roundF32 (2 ^ t) = 2 ^ t := by
  by_cases ht : t < 24
  · refine roundF32_small ?_
    calc 2 ^ t < 2 ^ 24 := Nat.pow_lt_pow_right (by norm_num) ht
    _ = 16777216 := by norm_num
  · have hge : ¬ 2 ^ t < 16777216 := by
      have : (16777216 : Nat) = 2 ^ 24 := by norm_num
      rw [this]
      exact not_lt.mpr (Nat.pow_le_pow_right (by norm_num) (by omega))
    unfold roundF32
    rw [if_neg hge, Nat.log2_two_pow]
    have hpos : 0 < 2 ^ (t - 23) := Nat.pos_pow_of_pos _ (by norm_num)
    have hmod : 2 ^ t % 2 ^ (t - 23) = 0 :=
      Nat.mod_eq_zero_of_dvd (pow_dvd_pow 2 (by omega))
    have hdiv : 2 ^ t / 2 ^ (t - 23) = 2 ^ 23 := by
      rw [Nat.pow_div (by omega) (by norm_num)]
      congr 1
      omega
    rw [hmod, hdiv]
    rw [if_neg (by simp [hpos.ne])]
    rw [← pow_add]
    congr 1
    omega

namespace OAHashMap

variable {K V : Type} [DecidableEq K]

/-- A successful `probeFind` scan found the key at offset `t` of the scanned
suffix, after passing only occupied slots whose keys differ. -/
theorem probeFind_found {k : K} {l : Buf K V} {i j : Nat}
    (h : probeFind k l i = some (some j)) :
    ∃ t, j = i + t ∧ (∃ e : Entry K V, l[t]? = some (some e) ∧ e.key = k) ∧
      ∀ u, u < t → ∃ e : Entry K V, l[u]? = some (some e) ∧ e.key ≠ k := by
  induction l generalizing i j with
  | nil => simp [probeFind] at h
  | cons hd rest ih =>
    cases hd with
    | none => simp [probeFind] at h
    | some e =>
      by_cases hk : e.key = k
      · simp [probeFind, hk] at h
        exact ⟨0, by omega, ⟨e, by simp, hk⟩, fun u hu => absurd hu (Nat.not_lt_zero u)⟩
      · simp only [probeFind, if_neg hk] at h
        obtain ⟨t, ht, he, hall⟩ := ih h
        refine ⟨t + 1, by omega, by simpa using he, fun u hu => ?_⟩
        cases u with
        | zero => exact ⟨e, by simp, hk⟩
        | succ u2 => simpa using hall u2 (by omega)

/-- Converse of `probeFind_found`. -/
theorem probeFind_found_of {k : K} {l : Buf K V} {t : Nat} {e : Entry K V}
    (he : l[t]? = some (some e)) (hk : e.key = k)
    (hall : ∀ u, u < t → ∃ f : Entry K V, l[u]? = some (some f) ∧ f.key ≠ k) :
    ∀ i, probeFind k l i = some (some (i + t)) := by
  induction l generalizing t with
  | nil => simp at he
  | cons hd rest ih =>
    intro i
    cases t with
    | zero =>
      simp only [List.getElem?_cons_zero, Option.some_inj] at he
      subst he
      simp [probeFind, hk]
    | succ t2 =>
      obtain ⟨f, hf, hfk⟩ := hall 0 (Nat.succ_pos t2)
      simp only [List.getElem?_cons_zero, Option.some_inj] at hf
      subst hf
      have := ih (by simpa using he) (fun u hu => by simpa using hall (u + 1) (by omega)) (i + 1)
      simp only [probeFind, if_neg hfk]
      rw [this]
      congr 2
      omega

/-- A `probeFind` scan that fell through on an `Empty` slot: some offset
holds `None`, and every earlier slot is occupied with a different key. -/
theorem probeFind_missed {k : K} {l : Buf K V} {i : Nat}
    (h : probeFind k l i = some none) :
    ∃ t : Nat, l[t]? = some none ∧
      ∀ u, u < t → ∃ e : Entry K V, l[u]? = some (some e) ∧ e.key ≠ k := by
  induction l generalizing i with
  | nil => simp [probeFind] at h
  | cons hd rest ih =>
    cases hd with
    | none => exact ⟨0, by simp, fun u hu => absurd hu (Nat.not_lt_zero u)⟩
    | some e =>
      by_cases hk : e.key = k
      · simp [probeFind, hk] at h
      · simp only [probeFind, if_neg hk] at h
        obtain ⟨t, ht, hall⟩ := ih h
        refine ⟨t + 1, by simpa using ht, fun u hu => ?_⟩
        cases u with
        | zero => exact ⟨e, by simp, hk⟩
        | succ u2 => simpa using hall u2 (by omega)

/-- Converse of `probeFind_missed`. -/
theorem probeFind_missed_of {k : K} {l : Buf K V} {t : Nat}
    (ht : l[t]? = some none)
    (hall : ∀ u, u < t → ∃ e : Entry K V, l[u]? = some (some e) ∧ e.key ≠ k) :
    ∀ i, probeFind k l i = some none := by
  induction l generalizing t with
  | nil => simp at ht
  | cons hd rest ih =>
    intro i
    cases t with
    | zero =>
      simp only [List.getElem?_cons_zero, Option.some_inj] at ht
      subst ht
      simp [probeFind]
    | succ t2 =>
      obtain ⟨f, hf, hfk⟩ := hall 0 (Nat.succ_pos t2)
      simp only [List.getElem?_cons_zero, Option.some_inj] at hf
      subst hf
      simp only [probeFind, if_neg hfk]
      exact ih (by simpa using ht) (fun u hu => by simpa using hall (u + 1) (by omega)) (i + 1)

/-- A successful `probePlace` scan: offset `t` is `Empty` or holds a deleted
entry, and every earlier slot is occupied by a live entry. -/
theorem probePlace_found {l : Buf K V} {i j : Nat}
    (h : probePlace l i = some j) :
    ∃ t, j = i + t ∧
      (l[t]? = some none ∨ ∃ e : Entry K V, l[t]? = some (some e) ∧ e.is_deleted = true) ∧
      ∀ u, u < t → ∃ e : Entry K V, l[u]? = some (some e) ∧ e.is_deleted = false := by
  induction l generalizing i j with
  | nil => simp [probePlace] at h
  | cons hd rest ih =>
    cases hd with
    | none =>
      simp only [probePlace, Option.some_inj] at h
      exact ⟨0, by omega, Or.inl (by simp), fun u hu => absurd hu (Nat.not_lt_zero u)⟩
    | some e =>
      by_cases hd : e.is_deleted = true
      · simp only [probePlace, if_pos hd, Option.some_inj] at h
        exact ⟨0, by omega, Or.inr ⟨e, by simp, hd⟩, fun u hu => absurd hu (Nat.not_lt_zero u)⟩
      · simp only [probePlace, if_neg hd] at h
        obtain ⟨t, ht, he, hall⟩ := ih h
        refine ⟨t + 1, by omega, by simpa using he, fun u hu => ?_⟩
        cases u with
        | zero => exact ⟨e, by simp, by simpa using hd⟩
        | succ u2 => simpa using hall u2 (by omega)

/-- Pointwise key observations (`None` slot versus entry key) determine a
`probeFind` scan. -/
theorem probeFind_congr {k : K} {l l2 : Buf K V}
    (h : ∀ t : Nat, l[t]?.map (Option.map Entry.key) = l2[t]?.map (Option.map Entry.key)) :
    ∀ i, probeFind k l i = probeFind k l2 i := by
  induction l generalizing l2 with
  | nil =>
    intro i
    cases l2 with
    | nil => rfl
    | cons hd2 rest2 => have h0 := h 0; simp at h0
  | cons hd rest ih =>
    intro i
    cases l2 with
    | nil => have h0 := h 0; cases hd <;> simp at h0
    | cons hd2 rest2 =>
      have h0 := h 0
      have ht : ∀ t, rest[t]?.map (Option.map Entry.key) = rest2[t]?.map (Option.map Entry.key) :=
        fun t => by simpa using h (t + 1)
      cases hd with
      | none =>
        cases hd2 with
        | none => simp [probeFind]
        | some f => simp at h0
      | some e =>
        cases hd2 with
        | none => simp at h0
        | some f =>
          have hkey : e.key = f.key := by simpa using h0
          by_cases hk : e.key = k
          · simp [probeFind, hk, hkey ▸ hk]
          · simp only [probeFind, if_neg hk, if_neg (hkey ▸ hk)]
            exact ih ht (i + 1)

/-- Buffer-level reading of a successful `find_index`: the match is at or
after the starting index, within the buffer, and every slot from the
starting index up to it is occupied by an entry with a different key. -/
theorem find_index_found {hash : K → Nat} {m : OAHashMap K V} {k : K} {i : Nat}
    (h : find_index hash m k = some (some i)) :
    m.starting_index hash k ≤ i ∧ i < m.buffer.length ∧
      (∃ e : Entry K V, m.buffer[i]? = some (some e) ∧ e.key = k) ∧
      ∀ j, m.starting_index hash k ≤ j → j < i →
        ∃ e : Entry K V, m.buffer[j]? = some (some e) ∧ e.key ≠ k := by
  obtain ⟨t, hji, ⟨e, he, hk⟩, hall⟩ := probeFind_found h
  rw [List.getElem?_drop] at he
  have hlen : m.starting_index hash k + t < m.buffer.length := by
    rcases List.getElem?_eq_some_iff.mp he with ⟨hl, _⟩
    exact hl
  refine ⟨by omega, by omega, ⟨e, by rwa [hji], hk⟩, fun j hsj hji2 => ?_⟩
  obtain ⟨f, hf, hfk⟩ := hall (j - m.starting_index hash k) (by omega)
  rw [List.getElem?_drop] at hf
  exact ⟨f, by rwa [Nat.add_sub_cancel' hsj] at hf, hfk⟩

/-- Converse of `find_index_found`. -/
theorem find_index_found_of {hash : K → Nat} {m : OAHashMap K V} {k : K} {i : Nat}
    (hs : m.starting_index hash k ≤ i)
    (he : ∃ e : Entry K V, m.buffer[i]? = some (some e) ∧ e.key = k)
    (hall : ∀ j, m.starting_index hash k ≤ j → j < i →
      ∃ e : Entry K V, m.buffer[j]? = some (some e) ∧ e.key ≠ k) :
    find_index hash m k = some (some i) := by
  obtain ⟨e, he, hk⟩ := he
  have h1 : (m.buffer.drop (m.starting_index hash k))[i - m.starting_index hash k]? =
      some (some e) := by
    rw [List.getElem?_drop, Nat.add_sub_cancel' hs]
    exact he
  have h2 : ∀ u, u < i - m.starting_index hash k →
      ∃ f : Entry K V, (m.buffer.drop (m.starting_index hash k))[u]? = some (some f) ∧
        f.key ≠ k := by
    intro u hu
    obtain ⟨f, hf, hfk⟩ := hall (m.starting_index hash k + u) (by omega) (by omega)
    exact ⟨f, by rwa [List.getElem?_drop], hfk⟩
  have := probeFind_found_of h1 hk h2 (m.starting_index hash k)
  rwa [Nat.add_sub_cancel' hs] at this

/-- Buffer-level reading of a `find_index` miss: an `Empty` slot lies at or
after the starting index, with only occupied different-key slots before it. -/
theorem find_index_missed {hash : K → Nat} {m : OAHashMap K V} {k : K}
    (h : find_index hash m k = some none) :
    ∃ i : Nat, m.starting_index hash k ≤ i ∧ m.buffer[i]? = some none ∧
      ∀ j, m.starting_index hash k ≤ j → j < i →
        ∃ e : Entry K V, m.buffer[j]? = some (some e) ∧ e.key ≠ k := by
  obtain ⟨t, ht, hall⟩ := probeFind_missed h
  rw [List.getElem?_drop] at ht
  refine ⟨m.starting_index hash k + t, by omega, ht, fun j hsj hji => ?_⟩
  obtain ⟨f, hf, hfk⟩ := hall (j - m.starting_index hash k) (by omega)
  rw [List.getElem?_drop] at hf
  exact ⟨f, by rwa [Nat.add_sub_cancel' hsj] at hf, hfk⟩

/-- Converse of `find_index_missed`. -/
theorem find_index_missed_of {hash : K → Nat} {m : OAHashMap K V} {k : K} {i : Nat}
    (hs : m.starting_index hash k ≤ i) (he : m.buffer[i]? = some none)
    (hall : ∀ j, m.starting_index hash k ≤ j → j < i →
      ∃ e : Entry K V, m.buffer[j]? = some (some e) ∧ e.key ≠ k) :
    find_index hash m k = some none := by
  have h1 : (m.buffer.drop (m.starting_index hash k))[i - m.starting_index hash k]? =
      some none := by
    rw [List.getElem?_drop, Nat.add_sub_cancel' hs]; exact he
  have h2 : ∀ u, u < i - m.starting_index hash k →
      ∃ f : Entry K V, (m.buffer.drop (m.starting_index hash k))[u]? = some (some f) ∧
        f.key ≠ k := by
    intro u hu
    obtain ⟨f, hf, hfk⟩ := hall (m.starting_index hash k + u) (by omega) (by omega)
    exact ⟨f, by rwa [List.getElem?_drop], hfk⟩
  exact probeFind_missed_of h1 h2 (m.starting_index hash k)

/-- Buffer-level reading of the placement probe of `insert_unchecked`. -/
theorem probePlace_found_buf {hash : K → Nat} {m : OAHashMap K V} {k : K} {p : Nat}
    (h : probePlace (m.buffer.drop (m.starting_index hash k)) (m.starting_index hash k) =
      some p) :
    m.starting_index hash k ≤ p ∧ p < m.buffer.length ∧
      (m.buffer[p]? = some none ∨
        ∃ e : Entry K V, m.buffer[p]? = some (some e) ∧ e.is_deleted = true) ∧
      ∀ j, m.starting_index hash k ≤ j → j < p →
        ∃ e : Entry K V, m.buffer[j]? = some (some e) ∧ e.is_deleted = false := by
  obtain ⟨t, hpi, he, hall⟩ := probePlace_found h
  have hlen : m.starting_index hash k + t < m.buffer.length := by
    rcases he with he | ⟨e, he, _⟩ <;> rw [List.getElem?_drop] at he <;>
      exact (List.getElem?_eq_some_iff.mp he).1
  refine ⟨by omega, by omega, ?_, fun j hsj hjp => ?_⟩
  · rcases he with he | ⟨e, he, hd⟩
    · rw [List.getElem?_drop] at he
      exact Or.inl (by rwa [hpi])
    · rw [List.getElem?_drop] at he
      exact Or.inr ⟨e, by rwa [hpi], hd⟩
  · obtain ⟨f, hf, hfd⟩ := hall (j - m.starting_index hash k) (by omega)
    rw [List.getElem?_drop] at hf
    exact ⟨f, by rwa [Nat.add_sub_cancel' hsj] at hf, hfd⟩

/-- Two buffers of the same length with pointwise equal key observations
give the same `find_index` result for every key. -/
theorem find_index_congr {hash : K → Nat} {m m2 : OAHashMap K V}
    (hlen : m.buffer.length = m2.buffer.length)
    (hobs : ∀ t : Nat,
      m.buffer[t]?.map (Option.map Entry.key) = m2.buffer[t]?.map (Option.map Entry.key))
    (k : K) : find_index hash m k = find_index hash m2 k := by
  have hcap : m.capacity = m2.capacity := hlen
  have hstart : m.starting_index hash k = m2.starting_index hash k := by
    unfold starting_index
    rw [hcap]
  unfold find_index
  rw [hstart]
  exact probeFind_congr
    (fun t => by rw [List.getElem?_drop, List.getElem?_drop, hobs]) _

/-- `insert_unchecked` writes a single slot, leaving the length unchanged. -/
theorem insert_unchecked_capacity {hash : K → Nat} {m m' : OAHashMap K V} {e : Entry K V}
    (h : insert_unchecked hash m e = some m') : m'.capacity = m.capacity := by
  unfold insert_unchecked at h
  split at h
  · exact absurd h (by simp)
  · simp only [Option.some_inj] at h
    subst h
    simp [capacity]
  · split at h
    · exact absurd h (by simp)
    · simp only [Option.some_inj] at h
      subst h
      simp [capacity]

/-- `delete` writes at most a single slot, leaving the length unchanged. -/
theorem delete_capacity {hash : K → Nat} {m m' : OAHashMap K V} {k : K}
    (h : delete hash m k = some m') : m'.capacity = m.capacity := by
  unfold delete at h
  split at h
  · exact absurd h (by simp)
  · simp only [Option.some_inj] at h
    subst h
    rfl
  · simp only [Option.some_inj] at h
    subst h
    simp [capacity]

/-- `reinsertAll` never changes the buffer length. -/
theorem reinsertAll_capacity {hash : K → Nat} :
    ∀ {buf : Buf K V} {m m' : OAHashMap K V},
      reinsertAll hash buf m = some m' → m'.capacity = m.capacity := by
  intro buf
  induction buf with
  | nil =>
    intro m m' h
    simp only [reinsertAll, Option.some_inj] at h
    subst h
    rfl
  | cons hd rest ih =>
    intro m m' h
    cases hd with
    | none => exact ih h
    | some e =>
      simp only [reinsertAll] at h
      split at h
      · exact absurd h (by simp)
      · rename_i m2 hm2
        rw [ih h, insert_unchecked_capacity hm2]

/-- Unfolding equation for `starting_index`. -/
theorem starting_index_spec (hash : K → Nat) (m : OAHashMap K V) (k : K) :
    m.starting_index hash k = hash k % m.capacity := rfl

/-- Case split for reading a slot of `l.set i a`. -/
theorem getElem?_set_cases {l : Buf K V} {i j : Nat} {a x : Option (Entry K V)}
    (h : (l.set i a)[j]? = some x) :
    (i = j ∧ x = a ∧ j < l.length) ∨ (i ≠ j ∧ l[j]? = some x) := by
  by_cases hij : i = j
  · subst hij
    rw [List.getElem?_set_self'] at h
    cases hl : l[i]? with
    | none => rw [hl] at h; simp at h
    | some y =>
      rw [hl] at h
      simp only [Option.map_some, Option.some_inj] at h
      exact Or.inl ⟨rfl, h.symm, (List.getElem?_eq_some_iff.mp hl).1⟩
  · exact Or.inr ⟨hij, by rwa [List.getElem?_set_ne hij] at h⟩

/-- A replicate-`none` buffer stores no entry. -/
theorem replicate_slot {n i : Nat} {e : Entry K V}
    (h : (List.replicate n (none : Option (Entry K V)))[i]? = some (some e)) : False := by
  rw [List.getElem?_replicate] at h
  split at h <;> simp at h

/-- When `find_index` misses, no stored entry of a `Findable` table has the
probed key (a stored entry would have been found). -/
theorem not_present_of_missed {hash : K → Nat} {m : OAHashMap K V} {k : K}
    (hfi : Findable hash m) (hmiss : find_index hash m k = some none) :
    ∀ (j : Nat) (f : Entry K V), m.buffer[j]? = some (some f) → f.key ≠ k := by
  intro j f hj hk
  have hfound := hfi j f hj
  rw [hk, hmiss] at hfound
  simp at hfound

/-- `insert_unchecked` preserves tombstone-freeness when the inserted entry
is live: every branch writes the given entry into one slot. -/
theorem insert_unchecked_noTomb {hash : K → Nat} {m m' : OAHashMap K V} {e : Entry K V}
    (hnt : NoTomb m) (hde : e.is_deleted = false)
    (h : insert_unchecked hash m e = some m') : NoTomb m' := by
  have hset : ∀ i : Nat, NoTomb (⟨m.buffer.set i (some e)⟩ : OAHashMap K V) := by
    intro i j f hj
    rcases getElem?_set_cases hj with ⟨_, hfe, _⟩ | ⟨_, hold⟩
    · cases hfe; exact hde
    · exact hnt j f hold
  unfold insert_unchecked at h
  split at h
  · exact absurd h (by simp)
  · simp only [Option.some_inj] at h
    subst h
    apply hset
  · split at h
    · exact absurd h (by simp)
    · simp only [Option.some_inj] at h
      subst h
      apply hset

/-- The central preservation lemma: a successful `insert_unchecked` on a
table whose stored keys are distinct and findable keeps them distinct and
findable. -/
theorem insert_unchecked_inv {hash : K → Nat} {m m' : OAHashMap K V} {e : Entry K V}
    (hnd : NoDupKeys m) (hfi : Findable hash m)
    (h : insert_unchecked hash m e = some m') :
    NoDupKeys m' ∧ Findable hash m' := by
  unfold insert_unchecked at h
  split at h
  · exact absurd h (by simp)
  case _ i hfind =>
    -- overwrite branch: the slot holding the key is rewritten in place
    simp only [Option.some_inj] at h
    subst h
    obtain ⟨hs, hlen, ⟨e0, he0, he0k⟩, hbef⟩ := find_index_found hfind
    have hobs : ∀ t : Nat, (m.buffer.set i (some e))[t]?.map (Option.map Entry.key)
        = m.buffer[t]?.map (Option.map Entry.key) := by
      intro t
      by_cases hti : i = t
      · subst hti
        rw [List.getElem?_set_self hlen, he0]
        simp [he0k]
      · rw [List.getElem?_set_ne hti]
    have hce : ∀ k', find_index hash (⟨m.buffer.set i (some e)⟩ : OAHashMap K V) k'
        = find_index hash m k' :=
      fun k' => find_index_congr (by simp) hobs k'
    have map1 : ∀ (j2 : Nat) (g : Entry K V),
        (m.buffer.set i (some e))[j2]? = some (some g) →
        ∃ g0 : Entry K V, m.buffer[j2]? = some (some g0) ∧ g0.key = g.key := by
      intro j2 g hg
      rcases getElem?_set_cases hg with ⟨hij, hge, _⟩ | ⟨_, hold⟩
      · subst hij
        cases hge
        exact ⟨e0, he0, he0k⟩
      · exact ⟨g, hold, rfl⟩
    constructor
    · intro i' j' e' f' hi' hj' hkey
      obtain ⟨g0, hg0, hg0k⟩ := map1 i' e' hi'
      obtain ⟨g1, hg1, hg1k⟩ := map1 j' f' hj'
      exact hnd i' j' g0 g1 hg0 hg1 (by rw [hg0k, hg1k, hkey])
    · intro j f hj
      rcases getElem?_set_cases hj with ⟨hij, hfe, _⟩ | ⟨_, hold⟩
      · subst hij
        cases hfe
        rw [hce]
        exact hfind
      · rw [hce]
        exact hfi j f hold
  case _ hfind =>
    -- fresh-placement branch: the key is absent, the entry goes to the
    -- first Empty-or-deleted slot of the probe
    split at h
    · exact absurd h (by simp)
    case _ p hplace =>
      simp only [Option.some_inj] at h
      subst h
      obtain ⟨i0, hsi0, hi0, hbef0⟩ := find_index_missed hfind
      obtain ⟨hsp, hplen, _, hbefp⟩ := probePlace_found_buf hplace
      have hpi0 : p ≤ i0 := by
        by_contra hc
        obtain ⟨f, hf, _⟩ := hbefp i0 hsi0 (by omega)
        rw [hi0] at hf
        simp at hf
      have habs : ∀ (j : Nat) (f : Entry K V), m.buffer[j]? = some (some f) →
          f.key ≠ e.key := not_present_of_missed hfi hfind
      have hstart : ∀ k', (⟨m.buffer.set p (some e)⟩ : OAHashMap K V).starting_index hash k'
          = m.starting_index hash k' := by
        intro k'
        unfold starting_index capacity
        simp
      constructor
      · intro i' j' e' f' hi' hj' hkey
        rcases getElem?_set_cases hi' with ⟨hip, hie, _⟩ | ⟨hip, hiold⟩ <;>
          rcases getElem?_set_cases hj' with ⟨hjp, hje, _⟩ | ⟨hjp, hjold⟩
        · omega
        · cases hie
          exact absurd hkey.symm (habs j' f' hjold)
        · cases hje
          exact absurd hkey (habs i' e' hiold)
        · exact hnd i' j' e' f' hiold hjold hkey
      · intro j f hj
        rcases getElem?_set_cases hj with ⟨hjp, hje, _⟩ | ⟨hjp, hjold⟩
        · cases hje
          subst hjp
          apply find_index_found_of
          · rw [hstart]; exact hsp
          · exact ⟨e, List.getElem?_set_self hplen, rfl⟩
          · intro j2 hsj2 hj2
            rw [hstart] at hsj2
            obtain ⟨g, hg, hgk⟩ := hbef0 j2 hsj2 (by omega)
            exact ⟨g, by rw [List.getElem?_set_ne (by omega)]; exact hg, hgk⟩
        · have hold_fi := hfi j f hjold
          obtain ⟨hs2, hlen2, _, hbef2⟩ := find_index_found hold_fi
          apply find_index_found_of
          · rw [hstart]; exact hs2
          · exact ⟨f, by rw [List.getElem?_set_ne hjp]; exact hjold, rfl⟩
          · intro j2 hsj2 hj2
            rw [hstart] at hsj2
            by_cases hj2p : j2 = p
            · subst hj2p
              refine ⟨e, List.getElem?_set_self hplen, ?_⟩
              exact fun hek => (habs j f hjold) (hek ▸ rfl)
            · obtain ⟨g, hg, hgk⟩ := hbef2 j2 hsj2 hj2
              exact ⟨g, by rw [List.getElem?_set_ne (fun hpj => hj2p hpj.symm)]; exact hg, hgk⟩

/-- Tombstone-freeness gives the flag of every member entry. -/
theorem noTomb_mem {m : OAHashMap K V} (hnt : NoTomb m) :
    ∀ e : Entry K V, some e ∈ m.buffer → e.is_deleted = false := by
  intro e he
  obtain ⟨i, hi⟩ := List.mem_iff_getElem?.mp he
  exact hnt i e hi

/-- `reinsertAll` of live entries preserves tombstone-freeness. -/
theorem reinsertAll_noTomb {hash : K → Nat} :
    ∀ {buf : Buf K V} {m0 m' : OAHashMap K V},
      (∀ e : Entry K V, some e ∈ buf → e.is_deleted = false) →
      NoTomb m0 → reinsertAll hash buf m0 = some m' → NoTomb m' := by
  intro buf
  induction buf with
  | nil =>
    intro m0 m' _ hnt h
    simp only [reinsertAll, Option.some_inj] at h
    subst h
    exact hnt
  | cons hd rest ih =>
    intro m0 m' hmem hnt h
    cases hd with
    | none => exact ih (fun e he => hmem e (List.mem_cons_of_mem _ he)) hnt h
    | some e =>
      simp only [reinsertAll] at h
      split at h
      · exact absurd h (by simp)
      · rename_i m2 hm2
        exact ih (fun f hf => hmem f (List.mem_cons_of_mem _ hf))
          (insert_unchecked_noTomb hnt (hmem e (List.mem_cons_self _ _)) hm2) h

/-- `extend` preserves tombstone-freeness. -/
theorem extend_noTomb {hash : K → Nat} {m m' : OAHashMap K V}
    (hnt : NoTomb m) (h : extend hash m = some m') : NoTomb m' := by
  unfold extend at h
  split at h
  · exact absurd h (by simp)
  · split at h
    · exact absurd h (by simp)
    · refine reinsertAll_noTomb (noTomb_mem hnt) ?_ h
      intro i e hi
      exact absurd hi replicate_slot

/-- `insert` preserves tombstone-freeness (`Entry::new` is live). -/
theorem insert_noTomb {hash : K → Nat} {m m' : OAHashMap K V} {k : K} {v : V}
    (hnt : NoTomb m) (h : insert hash m k v = some m') : NoTomb m' := by
  unfold insert at h
  split at h
  · exact absurd h (by simp)
  · rename_i m2 hm2
    have hnt2 : NoTomb m2 := by
      split at hm2
      · exact extend_noTomb hnt hm2
      · simp only [Option.some_inj] at hm2
        subst hm2
        exact hnt
    exact insert_unchecked_noTomb hnt2 rfl h

/-- `delete` preserves tombstone-freeness: it only clears a slot. -/
theorem delete_noTomb {hash : K → Nat} {m m' : OAHashMap K V} {k : K}
    (hnt : NoTomb m) (h : delete hash m k = some m') : NoTomb m' := by
  unfold delete at h
  split at h
  · exact absurd h (by simp)
  · simp only [Option.some_inj] at h
    subst h
    exact hnt
  · simp only [Option.some_inj] at h
    subst h
    intro j f hj
    rcases getElem?_set_cases hj with ⟨_, hfe, _⟩ | ⟨_, hold⟩
    · simp at hfe
    · exact hnt j f hold

/-- `reinsertAll` of live entries preserves key-distinctness and
findability, and tombstone-freeness of the target. -/
theorem reinsertAll_inv {hash : K → Nat} :
    ∀ {buf : Buf K V} {m0 m' : OAHashMap K V},
      (∀ e : Entry K V, some e ∈ buf → e.is_deleted = false) →
      NoTomb m0 → NoDupKeys m0 → Findable hash m0 →
      reinsertAll hash buf m0 = some m' →
      NoTomb m' ∧ NoDupKeys m' ∧ Findable hash m' := by
  intro buf
  induction buf with
  | nil =>
    intro m0 m' _ hnt hnd hfi h
    simp only [reinsertAll, Option.some_inj] at h
    subst h
    exact ⟨hnt, hnd, hfi⟩
  | cons hd rest ih =>
    intro m0 m' hmem hnt hnd hfi h
    cases hd with
    | none => exact ih (fun e he => hmem e (List.mem_cons_of_mem _ he)) hnt hnd hfi h
    | some e =>
      simp only [reinsertAll] at h
      split at h
      · exact absurd h (by simp)
      · rename_i m2 hm2
        obtain ⟨hnd2, hfi2⟩ := insert_unchecked_inv hnd hfi hm2
        exact ih (fun f hf => hmem f (List.mem_cons_of_mem _ hf))
          (insert_unchecked_noTomb hnt (hmem e (List.mem_cons_self _ _)) hm2) hnd2 hfi2 h

/-- `extend` preserves the combined invariant. -/
theorem extend_inv {hash : K → Nat} {m m' : OAHashMap K V}
    (hnt : NoTomb m) (hnd : NoDupKeys m) (hfi : Findable hash m)
    (h : extend hash m = some m') :
    NoTomb m' ∧ NoDupKeys m' ∧ Findable hash m' := by
  unfold extend at h
  split at h
  · exact absurd h (by simp)
  · split at h
    · exact absurd h (by simp)
    · refine reinsertAll_inv (noTomb_mem hnt) ?_ ?_ ?_ h
      · intro i e hi
        exact absurd hi replicate_slot
      · intro i j e f hi _ _
        exact absurd hi replicate_slot
      · intro i e hi
        exact absurd hi replicate_slot

/-- `insert` preserves the combined invariant. -/
theorem insert_inv {hash : K → Nat} {m m' : OAHashMap K V} {k : K} {v : V}
    (hnt : NoTomb m) (hnd : NoDupKeys m) (hfi : Findable hash m)
    (h : insert hash m k v = some m') :
    NoTomb m' ∧ NoDupKeys m' ∧ Findable hash m' := by
  unfold insert at h
  split at h
  · exact absurd h (by simp)
  · rename_i m2 hm2
    have hinv2 : NoTomb m2 ∧ NoDupKeys m2 ∧ Findable hash m2 := by
      split at hm2
      · exact extend_inv hnt hnd hfi hm2
      · simp only [Option.some_inj] at hm2
        subst hm2
        exact ⟨hnt, hnd, hfi⟩
    obtain ⟨hnd2, hfi2⟩ := insert_unchecked_inv hinv2.2.1 hinv2.2.2 h
    exact ⟨insert_unchecked_noTomb hinv2.1 rfl h, hnd2, hfi2⟩

/-- `extend`, when it returns, installs exactly the doubled capacity: the
saturated capacity `usize::MAX` always exceeds the allocation limit, so it
is never installed. -/
theorem extend_capacity {hash : K → Nat} {m m' : OAHashMap K V}
    (h : extend hash m = some m') :
    m'.capacity = m.capacity * 2 ∧ m.capacity * 2 ≤ ISIZE_MAX := by
  unfold extend at h
  split at h
  · exact absurd h (by simp)
  · split at h
    · exact absurd h (by simp)
    · rename_i hcap hguard
      have hmul : m.new_capacity = m.capacity * 2 := by
        unfold new_capacity at hguard ⊢
        by_cases hc : m.capacity * 2 ≤ USIZE_MAX
        · rw [if_pos hc]
        · rw [if_neg hc] at hguard
          exact absurd (by unfold USIZE_MAX ISIZE_MAX; omega) hguard
      have hcap' := reinsertAll_capacity h
      rw [hmul] at hcap' hguard
      constructor
      · rw [hcap']
        simp [capacity]
      · omega

/-- Case analysis of `insert` on the growth check. -/
theorem insert_capacity {hash : K → Nat} {m m' : OAHashMap K V} {k : K} {v : V}
    (h : insert hash m k v = some m') :
    (m.needs_extending = false ∧ m'.capacity = m.capacity) ∨
    (m.needs_extending = true ∧
      ∃ m2, extend hash m = some m2 ∧ m'.capacity = m2.capacity) := by
  unfold insert at h
  split at h
  · exact absurd h (by simp)
  · rename_i m2 hm2
    have hcap := insert_unchecked_capacity h
    split at hm2
    · rename_i hneed
      exact Or.inr ⟨hneed, m2, hm2, hcap⟩
    · rename_i hneed
      simp only [Option.some_inj] at hm2
      subst hm2
      exact Or.inl ⟨by simpa using hneed, hcap⟩

/-- A successful `insert_unchecked` leaves the inserted entry findable at
the slot it wrote, in any table state. -/
theorem insert_unchecked_find {hash : K → Nat} {m m' : OAHashMap K V} {e : Entry K V}
    (h : insert_unchecked hash m e = some m') :
    ∃ i : Nat, find_index hash m' e.key = some (some i) ∧
      m'.buffer[i]? = some (some e) := by
  unfold insert_unchecked at h
  split at h
  · exact absurd h (by simp)
  case _ i hfind =>
    simp only [Option.some_inj] at h
    subst h
    obtain ⟨hs, hlen, ⟨e0, he0, he0k⟩, hbef⟩ := find_index_found hfind
    have hstart : ∀ k', (⟨m.buffer.set i (some e)⟩ : OAHashMap K V).starting_index hash k'
        = m.starting_index hash k' := by
      intro k'
      unfold starting_index capacity
      simp
    refine ⟨i, ?_, List.getElem?_set_self hlen⟩
    apply find_index_found_of
    · rw [hstart]; exact hs
    · exact ⟨e, List.getElem?_set_self hlen, rfl⟩
    · intro j hsj hj
      rw [hstart] at hsj
      obtain ⟨g, hg, hgk⟩ := hbef j hsj hj
      exact ⟨g, by rw [List.getElem?_set_ne (by omega)]; exact hg, hgk⟩
  case _ hfind =>
    split at h
    · exact absurd h (by simp)
    case _ p hplace =>
      simp only [Option.some_inj] at h
      subst h
      obtain ⟨i0, hsi0, hi0, hbef0⟩ := find_index_missed hfind
      obtain ⟨hsp, hplen, _, hbefp⟩ := probePlace_found_buf hplace
      have hpi0 : p ≤ i0 := by
        by_contra hc
        obtain ⟨f, hf, _⟩ := hbefp i0 hsi0 (by omega)
        rw [hi0] at hf
        simp at hf
      have hstart : ∀ k', (⟨m.buffer.set p (some e)⟩ : OAHashMap K V).starting_index hash k'
          = m.starting_index hash k' := by
        intro k'
        unfold starting_index capacity
        simp
      refine ⟨p, ?_, List.getElem?_set_self hplen⟩
      apply find_index_found_of
      · rw [hstart]; exact hsp
      · exact ⟨e, List.getElem?_set_self hplen, rfl⟩
      · intro j hsj hj
        rw [hstart] at hsj
        obtain ⟨g, hg, hgk⟩ := hbef0 j hsj (by omega)
        exact ⟨g, by rw [List.getElem?_set_ne (by omega)]; exact hg, hgk⟩

/-- A successful `insert_unchecked` makes `search` on the entry's key return
the entry's value, in any table state. -/
theorem insert_unchecked_search {hash : K → Nat} {m m' : OAHashMap K V} {e : Entry K V}
    (h : insert_unchecked hash m e = some m') :
    search hash m' e.key = some (some e.value) := by
  obtain ⟨i, hfind, hslot⟩ := insert_unchecked_find h
  unfold search
  simp only [hfind, hslot]

/-- Positional key-distinctness of a buffer gives distinct live keys. -/
theorem liveKeys_nodup {m : OAHashMap K V} (hnd : NoDupKeys m) :
    m.liveKeys.Nodup := by
  unfold liveKeys
  unfold NoDupKeys at hnd
  generalize hbuf : m.buffer = buf at hnd
  clear hbuf
  induction buf with
  | nil => simp
  | cons hd rest ih =>
    have hrest := ih (fun i j e f hi hj hk => by
      have := hnd (i + 1) (j + 1) e f (by simpa using hi) (by simpa using hj) hk
      omega)
    cases hd with
    | none => simpa using hrest
    | some e =>
      by_cases hdel : e.is_deleted
      · simpa [hdel] using hrest
      · simp only [List.filterMap_cons, id, List.filter_cons, hdel, Bool.not_false,
          if_pos, List.map_cons]
        rw [List.nodup_cons]
        refine ⟨?_, hrest⟩
        intro hmem
        obtain ⟨f, hfmem, hfk⟩ := List.mem_map.mp hmem
        obtain ⟨hfrest, _⟩ := List.mem_filter.mp hfmem
        obtain ⟨a, harest, ha⟩ := List.mem_filterMap.mp hfrest
        have : some f ∈ rest := by
          cases a with
          | none => simp at ha
          | some g => simp only [id, Option.some_inj] at ha; rwa [ha] at harest
        obtain ⟨i, hi⟩ := List.mem_iff_getElem?.mp this
        have := hnd 0 (i + 1) e f (by simp) (by simpa using hi) hfk.symm
        omega

/-- When `find_index` locates the key at slot `i`, `delete` (whose probe is
the same loop) clears exactly that slot to `Empty`. -/
theorem delete_of_found {hash : K → Nat} {m : OAHashMap K V} {k : K} {i : Nat}
    (h : find_index hash m k = some (some i)) :
    delete hash m k = some ⟨m.buffer.set i none⟩ := by
  unfold find_index at h
  unfold delete
  rw [h]

/-- The reinsertion loop of `extend` feeds exactly the occupied slots, in
order, to `insert_unchecked`. -/
theorem reinsertAll_eq_entries {hash : K → Nat} :
    ∀ (buf : Buf K V) (m : OAHashMap K V),
      reinsertAll hash buf m = reinsertEntries hash (buf.filterMap id) m := by
  intro buf
  induction buf with
  | nil => intro m; rfl
  | cons hd rest ih =>
    intro m
    cases hd with
    | none => simpa [reinsertAll, List.filterMap_cons] using ih m
    | some e =>
      simp only [reinsertAll, List.filterMap_cons, id, reinsertEntries]
      cases h : insert_unchecked hash m e with
      | none => rfl
      | some m2 => exact ih m2

/-- In a tombstone-free table the occupied slots are exactly the live
entries. -/
theorem liveEntries_of_noTomb {m : OAHashMap K V} (hnt : NoTomb m) :
    m.liveEntries = m.buffer.filterMap id := by
  unfold liveEntries
  apply List.filter_eq_self.mpr
  intro e he
  obtain ⟨a, hamem, ha⟩ := List.mem_filterMap.mp he
  have : some e ∈ m.buffer := by
    cases a with
    | none => simp at ha
    | some g =>
      simp only [id, Option.some_inj] at ha
      rwa [ha] at hamem
  simp [noTomb_mem hnt e this]

end OAHashMap

/-- Every state reachable from `new()` (with deletes allowed) is free of
tombstones: no stored entry ever has `is_deleted = true`. -/
theorem reach_noTomb {K V : Type} [DecidableEq K] {hash : K → Nat}
    {s : OAHashMap K V} (h : Reach hash s) : OAHashMap.NoTomb s := by
  induction h with
  | new =>
    intro i e hi
    exact absurd hi OAHashMap.replicate_slot
  | insert _ hstep ih => exact OAHashMap.insert_noTomb ih hstep
  | delete _ hstep ih => exact OAHashMap.delete_noTomb ih hstep

/-- Every state reachable from `new()` without deletes satisfies the
combined invariant: no tombstones, distinct stored keys, every stored entry
findable by probing from its home slot. -/
theorem reachI_inv {K V : Type} [DecidableEq K] {hash : K → Nat}
    {s : OAHashMap K V} (h : ReachI hash s) :
    OAHashMap.NoTomb s ∧ OAHashMap.NoDupKeys s ∧ OAHashMap.Findable hash s := by
  induction h with
  | new =>
    refine ⟨?_, ?_, ?_⟩
    · intro i e hi
      exact absurd hi OAHashMap.replicate_slot
    · intro i j e f hi _ _
      exact absurd hi OAHashMap.replicate_slot
    · intro i e hi
      exact absurd hi OAHashMap.replicate_slot
  | insert _ hstep ih => exact OAHashMap.insert_inv ih.1 ih.2.1 ih.2.2 hstep

/-- Every state reachable from `new()` has a power-of-two capacity,
`64 * 2 ^ j`: the saturated capacity `usize::MAX` is never installed
because its allocation always aborts first. -/
theorem reach_capacity {K V : Type} [DecidableEq K] {hash : K → Nat}
    {s : OAHashMap K V} (h : Reach hash s) : ∃ j : Nat, s.capacity = 2 ^ (6 + j) := by
  induction h with
  | new =>
    refine ⟨0, ?_⟩
    unfold OAHashMap.new OAHashMap.capacity
    simp [INITIAL_CAPACITY]
  | insert _ hstep ih =>
    obtain ⟨j, hj⟩ := ih
    rcases OAHashMap.insert_capacity hstep with ⟨_, hcap⟩ | ⟨_, m2, hext, hcap⟩
    · exact ⟨j, by rw [hcap, hj]⟩
    · refine ⟨j + 1, ?_⟩
      rw [hcap, (OAHashMap.extend_capacity hext).1, hj]
      ring
  | delete _ hstep ih =>
    obtain ⟨j, hj⟩ := ih
    exact ⟨j, by rw [OAHashMap.delete_capacity hstep, hj]⟩

/-- With no growth pending, `insert` is `insert_unchecked` on a fresh
entry. -/
theorem insert_no_extend {K V : Type} [DecidableEq K] {hash : K → Nat}
    {m : OAHashMap K V} (k : K) (v : V) (h : m.needs_extending = false) :
    OAHashMap.insert hash m k v = OAHashMap.insert_unchecked hash m (Entry.new k v) := by
  unfold OAHashMap.insert
  simp [h]

/-- When `find_index` locates the key, `insert_unchecked` overwrites that
slot in place. -/
theorem insert_unchecked_of_found {K V : Type} [DecidableEq K] {hash : K → Nat}
    {m : OAHashMap K V} {e : Entry K V} {i : Nat}
    (h : OAHashMap.find_index hash m e.key = some (some i)) :
    OAHashMap.insert_unchecked hash m e = some ⟨m.buffer.set i (some e)⟩ := by
  unfold OAHashMap.insert_unchecked
  rw [h]

/-- C1: the claim says every probe advances by one slot with wraparound via
modulo and never accesses an index outside the backing array.  In the code
only the starting index is reduced modulo the capacity; the loops of
`find_index` (used by `search` and insert's lookup), `delete` and
`insert_unchecked` advance with `index += 1` and index out of bounds (a
panic, modelled as `none`) once an occupied run reaches the end of the
array: at `probeOffTable` (capacity 4) with key 7 the probe starts in
bounds at home slot 3 and then panics in all three operations. -/
theorem claim1_probe_no_wraparound :
    OAHashMap.starting_index idHash probeOffTable 7 = 3 ∧
    OAHashMap.capacity probeOffTable = 4 ∧
    OAHashMap.search idHash probeOffTable 7 = none ∧
    OAHashMap.delete idHash probeOffTable 7 = none ∧
    OAHashMap.insert idHash probeOffTable 7 9 = none := by
  decide

/-- C2 (counterexample): the state reached from `new()` by `insert(0, 1)`,
`insert(64, 2)`, `delete(0)`, `insert(64, 3)` is reachable and stores two
live entries with key 64, refuting the claimed invariant for sequences that
include `delete`. -/
theorem claim2_counterexample :
    Reach idHash chainS4 ∧ ¬ chainS4.liveKeys.Nodup := by
  have h1 : OAHashMap.insert idHash (OAHashMap.new : OAHashMap Nat Nat) 0 1
      = some chainS1 := by decide
  have h2 : OAHashMap.insert idHash chainS1 64 2 = some chainS2 := by decide
  have h3 : OAHashMap.delete idHash chainS2 0 = some chainS3 := by decide
  have h4 : OAHashMap.insert idHash chainS3 64 3 = some chainS4 := by decide
  refine ⟨Reach.insert (Reach.delete (Reach.insert (Reach.insert Reach.new h1) h2) h3) h4, ?_⟩
  decide

/-- C2 (amended): in every state reachable from `new()` by `insert` and
`search` calls alone, no two live entries share a key; `delete` itself
removes at most one entry but can break the probe-reachability that
insert's duplicate check relies on, after which a later insert can create a
duplicate (see the counterexample). -/
theorem claim2_amended {K V : Type} [DecidableEq K] (hash : K → Nat)
    (s : OAHashMap K V) (h : ReachI hash s) : s.liveKeys.Nodup :=
  OAHashMap.liveKeys_nodup (reachI_inv h).2.1

/-- Witness for C2 (amended) at the concrete reachable state `chainS1`. -/
theorem claim2_amended_witness :
    OAHashMap.insert idHash (OAHashMap.new : OAHashMap Nat Nat) 0 1 = some chainS1 ∧
    chainS1.liveKeys.Nodup := by
  have h1 : OAHashMap.insert idHash (OAHashMap.new : OAHashMap Nat Nat) 0 1
      = some chainS1 := by decide
  exact ⟨h1, claim2_amended idHash chainS1 (ReachI.insert ReachI.new h1)⟩

/-- C3: in any table state (reachable or not), if `insert(k, v)` returns
normally then `search(k)` returns the just-inserted value `v`.  (When the
insert panics — see C1 — there is no post-state to query.) -/
theorem claim3_insert_search_roundtrip {K V : Type} [DecidableEq K] (hash : K → Nat)
    (m m' : OAHashMap K V) (k : K) (v : V)
    (h : OAHashMap.insert hash m k v = some m') :
    OAHashMap.search hash m' k = some (some v) := by
  unfold OAHashMap.insert at h
  split at h
  · exact absurd h (by simp)
  · exact OAHashMap.insert_unchecked_search h

/-- Witness for C3 at `insert(1, 10)` on a fresh table. -/
theorem claim3_witness :
    OAHashMap.insert idHash (OAHashMap.new : OAHashMap Nat Nat) 1 10 = some insertedOne ∧
    OAHashMap.search idHash insertedOne 1 = some (some 10) := by
  have h : OAHashMap.insert idHash (OAHashMap.new : OAHashMap Nat Nat) 1 10
      = some insertedOne := by decide
  exact ⟨h, claim3_insert_search_roundtrip idHash _ _ 1 10 h⟩

/-- C4: whenever the delete probe reaches a slot whose key matches (that is,
`find_index` — the same loop — locates the key at slot `i`), `delete`
resets exactly that slot to `Empty` (no entry, no tombstone) and leaves
every other slot unchanged. -/
theorem claim4_delete_clears_slot {K V : Type} [DecidableEq K] (hash : K → Nat)
    (m : OAHashMap K V) (k : K) (i : Nat)
    (h : OAHashMap.find_index hash m k = some (some i)) :
    OAHashMap.delete hash m k = some ⟨m.buffer.set i none⟩ ∧
    (m.buffer.set i none)[i]? = some none ∧
    ∀ j : Nat, j ≠ i → (m.buffer.set i none)[j]? = m.buffer[j]? := by
  refine ⟨OAHashMap.delete_of_found h, ?_, ?_⟩
  · exact List.getElem?_set_self (OAHashMap.find_index_found h).2.1
  · intro j hj
    exact List.getElem?_set_ne fun h2 => hj h2.symm

/-- Witness for C4 on a one-slot table holding key 0. -/
theorem claim4_witness :
    OAHashMap.find_index idHash (⟨[some ⟨0, 5, false⟩]⟩ : OAHashMap Nat Nat) 0
      = some (some 0) ∧
    OAHashMap.delete idHash (⟨[some ⟨0, 5, false⟩]⟩ : OAHashMap Nat Nat) 0
      = some ⟨[(none : Option (Entry Nat Nat))]⟩ ∧
    ([(none : Option (Entry Nat Nat))])[0]? = some none := by
  have h : OAHashMap.find_index idHash (⟨[some ⟨0, 5, false⟩]⟩ : OAHashMap Nat Nat) 0
      = some (some 0) := by decide
  obtain ⟨h1, h2, _⟩ := claim4_delete_clears_slot idHash ⟨[some ⟨0, 5, false⟩]⟩ 0 0 h
  exact ⟨h, h1, h2⟩

/-- C5 (counterexample): at `bigTable` the load factor strictly exceeds 0.6
(5 · live > 3 · capacity), yet `needs_extending` is false — the code
compares against the `f32` value 10066330 / 2 ^ 24 ≈ 0.60000002, not 0.6 —
and the next insert completes without growing the table. -/
theorem claim5_counterexample :
    5 * OAHashMap.liveCount bigTable.buffer > 3 * OAHashMap.capacity bigTable ∧
    OAHashMap.needs_extending bigTable = false ∧
    OAHashMap.insert idHash bigTable 0 99
      = some ⟨bigTable.buffer.set 0 (some ⟨0, 99, false⟩)⟩ ∧
    OAHashMap.capacity ⟨bigTable.buffer.set 0 (some ⟨0, 99, false⟩)⟩
      = OAHashMap.capacity bigTable := by
  have hlive : OAHashMap.liveCount bigTable.buffer = 5033165 := by
    unfold bigTable OAHashMap.liveCount
    rw [List.filter_append, List.length_append, List.filter_replicate, List.filter_replicate]
    norm_num
  have hcap : OAHashMap.capacity bigTable = 8388608 := by
    unfold bigTable OAHashMap.capacity
    rw [List.length_append, List.length_replicate, List.length_replicate]
  have hr2 : roundF32 8388608 = 8388608 := by
    have h23 := roundF32_pow2 23
    norm_num at h23
    exact h23
  have hprop : ¬ (roundF32 (OAHashMap.liveCount bigTable.buffer) * 16777216 >
      10066330 * roundF32 (OAHashMap.capacity bigTable)) := by
    rw [hlive, hcap, roundF32_small (by norm_num), hr2]
    norm_num
  have hneed : OAHashMap.needs_extending bigTable = false := by
    unfold OAHashMap.needs_extending
    exact decide_eq_false hprop
  have hstart : OAHashMap.starting_index idHash bigTable 0 = 0 := by
    rw [OAHashMap.starting_index_spec, hcap]
    simp [idHash]
  have hslot : bigTable.buffer[0]? = some (some ⟨0, 0, false⟩) := by
    unfold bigTable
    rw [List.getElem?_append_left (by rw [List.length_replicate]; norm_num)]
    rw [List.getElem?_replicate_of_lt (by norm_num)]
  have hfind : OAHashMap.find_index idHash bigTable 0 = some (some 0) := by
    apply OAHashMap.find_index_found_of
    · exact le_of_eq hstart
    · exact ⟨⟨0, 0, false⟩, hslot, rfl⟩
    · intro j hj1 hj2
      omega
  refine ⟨by rw [hlive, hcap]; norm_num, hneed, ?_, ?_⟩
  · rw [insert_no_extend 0 99 hneed]
    exact insert_unchecked_of_found hfind
  · unfold OAHashMap.capacity
    rw [List.length_set]

/-- C5 (amended): `insert` grows the table exactly when
`2 ^ 24 · live > 10066330 · capacity`, the exact form of the code's `f32`
comparison `live / capacity > 0.6f32` (with `0.6f32 = 10066330 / 2 ^ 24`),
stated for a power-of-two capacity and a live count below `2 ^ 24`, where
both `f32` casts and the division are exact.  This coincides with
"load factor strictly greater than 0.6" except when the load factor lies in
the interval (3/5, 10066330/2^24]. -/
theorem claim5_amended {K V : Type} [DecidableEq K] (hash : K → Nat)
    (m m' : OAHashMap K V) (k : K) (v : V) (t : Nat)
    (hcap : m.capacity = 2 ^ t) (hlive : OAHashMap.liveCount m.buffer < 16777216)
    (h : OAHashMap.insert hash m k v = some m') :
    m'.capacity ≠ m.capacity ↔
      OAHashMap.liveCount m.buffer * 16777216 > 10066330 * m.capacity := by
  have hneed_iff : m.needs_extending = true ↔
      OAHashMap.liveCount m.buffer * 16777216 > 10066330 * m.capacity := by
    unfold OAHashMap.needs_extending
    rw [decide_eq_true_eq, roundF32_small hlive, hcap, roundF32_pow2]
  have hpos : 0 < m.capacity := by
    rw [hcap]
    exact Nat.pos_pow_of_pos _ (by norm_num)
  rcases OAHashMap.insert_capacity h with ⟨hf, hc⟩ | ⟨ht, m2, hext, hc⟩
  · rw [hf] at hneed_iff
    simp only [Bool.false_eq_true, false_iff] at hneed_iff
    simp [hc, hneed_iff]
  · rw [ht] at hneed_iff
    simp only [true_iff] at hneed_iff
    have hdouble := (OAHashMap.extend_capacity hext).1
    rw [hc, hdouble]
    constructor
    · intro _
      exact hneed_iff
    · intro _
      omega

/-- Witness for C5 (amended) at `insert(1, 10)` on a fresh table (capacity
`2 ^ 6`, live count 0): no growth, and the threshold comparison is false. -/
theorem claim5_amended_witness :
    OAHashMap.insert idHash (OAHashMap.new : OAHashMap Nat Nat) 1 10 = some insertedOne ∧
    OAHashMap.capacity (OAHashMap.new : OAHashMap Nat Nat) = 2 ^ 6 ∧
    OAHashMap.liveCount (OAHashMap.new : OAHashMap Nat Nat).buffer < 16777216 ∧
    (OAHashMap.capacity insertedOne ≠ OAHashMap.capacity (OAHashMap.new : OAHashMap Nat Nat) ↔
      OAHashMap.liveCount (OAHashMap.new : OAHashMap Nat Nat).buffer * 16777216 >
        10066330 * OAHashMap.capacity (OAHashMap.new : OAHashMap Nat Nat)) := by
  have h : OAHashMap.insert idHash (OAHashMap.new : OAHashMap Nat Nat) 1 10
      = some insertedOne := by decide
  exact ⟨h, by decide, by decide,
    claim5_amended idHash _ _ 1 10 6 (by decide) (by decide) h⟩

/-- C6: the claim says `extend` panics exactly when the capacity is already
`usize::MAX`.  The panic at `usize::MAX` and the saturating doubling are as
claimed, but `extend` can also panic far below the maximum: rehashing uses
the same non-wrapping probe, and at `reinsertPanicTable` (capacity 4, keys
15 and 7 whose home slot modulo the new capacity 8 is 7) the reinsertion
probe runs off the end of the new array and panics.  On `extendOkTable` the
same `extend` completes and doubles the capacity. -/
theorem claim6_extend_panics_below_max :
    OAHashMap.capacity reinsertPanicTable = 4 ∧
    OAHashMap.capacity reinsertPanicTable ≠ USIZE_MAX ∧
    OAHashMap.extend idHash reinsertPanicTable = none ∧
    OAHashMap.extend idHash extendOkTable
      = some ⟨[none, none, none, some ⟨3, 9, false⟩, none, none, none, none]⟩ ∧
    OAHashMap.capacity
      (⟨[none, none, none, some ⟨3, 9, false⟩, none, none, none, none]⟩ : OAHashMap Nat Nat)
      = 2 * OAHashMap.capacity extendOkTable := by
  refine ⟨by decide, ?_, by decide, by decide, by decide⟩
  unfold USIZE_MAX
  decide

/-- C7 (counterexample): `extend` does not drop deleted entries — the
reinsertion loop takes every occupied slot, tombstoned or not.  From
`tombTable`, whose only entry is flagged deleted, `extend` carries that
deleted entry into the new array. -/
theorem claim7_counterexample :
    (⟨3, 0, true⟩ : Entry Nat Nat).is_deleted = true ∧
    OAHashMap.extend idHash tombTable
      = some ⟨[none, none, none, some ⟨3, 0, true⟩, none, none, none, none]⟩ := by
  decide

/-- C7 (amended): `extend` feeds every occupied slot of the old array, in
slot order, to `insert_unchecked`; on a tombstone-free table — every state
this program actually reaches, see C10 — those are exactly the live
entries, so exactly the live entries are reinserted via the fresh-insert
path into the new all-`Empty` array. -/
theorem claim7_amended {K V : Type} [DecidableEq K] (hash : K → Nat)
    (m : OAHashMap K V) (hnt : OAHashMap.NoTomb m)
    (hcap : m.capacity ≠ USIZE_MAX) (halloc : m.new_capacity ≤ ISIZE_MAX) :
    OAHashMap.extend hash m
      = OAHashMap.reinsertEntries hash m.liveEntries
          ⟨List.replicate m.new_capacity none⟩ := by
  unfold OAHashMap.extend
  rw [if_neg hcap, if_neg (not_lt.mpr halloc)]
  rw [OAHashMap.reinsertAll_eq_entries]
  rw [OAHashMap.liveEntries_of_noTomb hnt]

/-- Witness for C7 (amended) on `extendOkTable`. -/
theorem claim7_amended_witness :
    OAHashMap.NoTomb extendOkTable ∧
    OAHashMap.extend idHash extendOkTable
      = OAHashMap.reinsertEntries idHash extendOkTable.liveEntries
          ⟨List.replicate extendOkTable.new_capacity none⟩ := by
  have hnt : OAHashMap.NoTomb extendOkTable := by
    intro i e hi
    match i, hi with
    | 3, hi =>
      simp only [extendOkTable] at hi
      simp at hi
      rw [← hi]
  exact ⟨hnt, claim7_amended idHash extendOkTable hnt (by decide)
    (by unfold OAHashMap.new_capacity USIZE_MAX ISIZE_MAX; decide)⟩

/-- C8: the claim says deleting an absent key is always a silent no-op.
After the reachable single `insert(63, 0)` (home slot 63, the last slot),
deleting the absent key 127 (home slot 63 as well) probes past the end of
the array and panics with an out-of-bounds index instead of returning. -/
theorem claim8_delete_absent_panics :
    OAHashMap.insert idHash (OAHashMap.new : OAHashMap Nat Nat) 63 0
      = some insertedSixtyThree ∧
    OAHashMap.containsKey insertedSixtyThree 127 = false ∧
    OAHashMap.delete idHash insertedSixtyThree 127 = none := by
  decide

/-- C9: a fresh table has capacity 64; every reachable state has a
power-of-two capacity (the saturated capacity `usize::MAX` is never
installed because allocating `usize::MAX` slots of at least one byte always
aborts first); and whenever the load-factor check fires, a completing
insert doubles the capacity before inserting. -/
theorem claim9_capacity {K V : Type} [DecidableEq K] (hash : K → Nat) :
    (OAHashMap.new : OAHashMap K V).capacity = 64 ∧
    (∀ s : OAHashMap K V, Reach hash s → ∃ j : Nat, s.capacity = 2 ^ (6 + j)) ∧
    (∀ (s s' : OAHashMap K V) (k : K) (v : V), s.needs_extending = true →
      OAHashMap.insert hash s k v = some s' → s'.capacity = 2 * s.capacity) := by
  refine ⟨?_, fun s h => reach_capacity h, fun s s' k v hneed hins => ?_⟩
  · unfold OAHashMap.new OAHashMap.capacity
    simp [INITIAL_CAPACITY]
  · rcases OAHashMap.insert_capacity hins with ⟨hf, _⟩ | ⟨_, m2, hext, hcap⟩
    · rw [hneed] at hf
      simp at hf
    · rw [hcap, (OAHashMap.extend_capacity hext).1]
      ring

/-- Witness for C9: the fresh table (reachable by `Reach.new`) and a
concrete doubling insert on `doubleTable`. -/
theorem claim9_witness :
    (OAHashMap.new : OAHashMap Nat Nat).capacity = 64 ∧
    (∃ j : Nat, (OAHashMap.new : OAHashMap Nat Nat).capacity = 2 ^ (6 + j)) ∧
    OAHashMap.needs_extending doubleTable = true ∧
    OAHashMap.insert idHash doubleTable 5 9 = some doubledTable ∧
    OAHashMap.capacity doubledTable = 2 * OAHashMap.capacity doubleTable := by
  have hneed : OAHashMap.needs_extending doubleTable = true := by decide
  have hins : OAHashMap.insert idHash doubleTable 5 9 = some doubledTable := by decide
  obtain ⟨h1, h2, h3⟩ := claim9_capacity (K := Nat) (V := Nat) idHash
  exact ⟨h1, h2 _ Reach.new, hneed, hins, h3 _ _ 5 9 hneed hins⟩

/-- C10: in every state reachable from `new()` by any sequence of `insert`,
`search` and `delete` calls, every stored entry has `is_deleted = false`:
`delete` clears slots to `Empty`, `Entry::new` starts live, and `extend`
only re-stores existing entries, so no tombstone ever exists (and insert's
deleted-slot reuse branch, guarded by a stored deleted entry, can never be
taken from a reachable state). -/
theorem claim10_no_tombstones {K V : Type} [DecidableEq K] (hash : K → Nat)
    (s : OAHashMap K V) (h : Reach hash s) :
    ∀ (i : Nat) (e : Entry K V), s.buffer[i]? = some (some e) → e.is_deleted = false :=
  reach_noTomb h

/-- Witness for C10 at the reachable state `insertedOne`. -/
theorem claim10_witness :
    OAHashMap.insert idHash (OAHashMap.new : OAHashMap Nat Nat) 1 10 = some insertedOne ∧
    insertedOne.buffer[1]? = some (some ⟨1, 10, false⟩) ∧
    (⟨1, 10, false⟩ : Entry Nat Nat).is_deleted = false := by
  have h : OAHashMap.insert idHash (OAHashMap.new : OAHashMap Nat Nat) 1 10
      = some insertedOne := by decide
  refine ⟨h, by decide, ?_⟩
  exact claim10_no_tombstones idHash insertedOne (Reach.insert Reach.new h) 1 ⟨1, 10, false⟩
    (by decide)

end OAHM
